import Mathlib

/-
Verification of the crawl-mtk price-dashboard core logic: the paginated
query client, the price analytics (cheapest across stations, weekday and
hour price patterns, buy/wait advice), chart alignment, selection-state
mutations, and time-window (de)serialization.  Definitions are shallow
embeddings of the JavaScript/TypeScript source; JS numbers are modelled
as exact rationals, JS `null`/`undefined` as `Option`, and JS strings as
`List Char` where their structure matters.
-/

namespace CrawlMtk

/-! ## Paginated query client (`fetchPaginatedData`) -/

/-! ### Definitions -/

/-- Page size constant `PAGE_SIZE = 1000` of the source. -/
def PAGE_SIZE : Nat := 1000

/-- Shallow embedding of `fetchPaginatedData`: the remote service is
modelled as the full list of rows the query yields, each loop iteration
(one HTTP request) fetching the slice `LIMIT PAGE_SIZE OFFSET offset`,
i.e. `take PAGE_SIZE` of the remaining rows.  The loop appends the
fetched page and stops when a page has fewer rows than `PAGE_SIZE`
(`fetchedRows.length < PAGE_SIZE`), not when it is empty.  Returns the
concatenated rows together with the number of requests issued. -/
def fetchPaginatedData {α : Type} (remaining : List α) : List α × Nat :=
  if h : (remaining.take PAGE_SIZE).length < PAGE_SIZE then
    (remaining.take PAGE_SIZE, 1)
  else
    let rest := fetchPaginatedData (remaining.drop PAGE_SIZE)
    (remaining.take PAGE_SIZE ++ rest.1, rest.2 + 1)
termination_by remaining.length
decreasing_by
  rw [List.length_take] at h
  rw [List.length_drop]
  simp only [PAGE_SIZE] at *
  omega

/-- The three fuel keys of `FUEL_TYPE_CONFIG`. -/
inductive FuelKey : Type
  | diesel
  | superE5
  | e10
deriving DecidableEq

/-- A row of the `price_history` query: `last_transmission` (modelled as
an abstract millisecond timestamp), its Berlin-local weekday and
hour-of-day (values of the external `Date` component extraction, carried
as fields since `Date` is an external collaborator), and the three
optional fuel prices.  JS `null` is `Option.none`; JS numbers are exact
rationals. -/
structure PriceRow : Type where
  ts : Nat
  day : Fin 7
  hour : Fin 24
  price_diesel : Option ℚ
  price_super : Option ℚ
  price_super_e10 : Option ℚ
deriving DecidableEq

/-- Field access `row[fuel.key]`. -/
def fuelVal (r : PriceRow) : FuelKey → Option ℚ
  | FuelKey.diesel => r.price_diesel
  | FuelKey.superE5 => r.price_super
  | FuelKey.e10 => r.price_super_e10

/-- A station record from the `gas_stations` query. -/
structure Station : Type where
  station_id : String
  name : String
  address : String
deriving DecidableEq

/-- One entry of `stationDataArray`: a station together with its fetched
price series (time-ordered, as delivered by `ORDER BY last_transmission`). -/
structure StationData : Type where
  station : Station
  data : List PriceRow
deriving DecidableEq

/-- The data-model invariant of the spec for a single optional price:
every reported price is a positive currency amount (absence is `none`,
never coerced to zero). -/
def validPrice : Option ℚ → Bool
  | none => true
  | some p => decide (0 < p)

/-- Positivity invariant for a row. -/
def validRow (r : PriceRow) : Bool :=
  validPrice r.price_diesel && validPrice r.price_super && validPrice r.price_super_e10

/-- Positivity invariant for a whole series. -/
def validSeries (rows : List PriceRow) : Bool :=
  rows.all validRow

/-- Positivity invariant for a list of station series. -/
def validAll (sds : List StationData) : Bool :=
  sds.all (fun sd => validSeries sd.data)

/-- The station ids of a selection, in order. -/
def selectionIds (sel : List Station) : List String :=
  sel.map Station.station_id

/-- Shallow embedding of the add-station path of `handleResultClick`: if a
station with the same `station_id` is already selected the click is a
no-op on the selection, otherwise the station is pushed at the end. -/
def addStation (sel : List Station) (s : Station) : List Station :=
  if sel.any (fun t => t.station_id = s.station_id) then sel else sel ++ [s]

/-- Shallow embedding of `removeStation`: filters out every entry whose
`station_id` equals the given id. -/
def removeStation (sel : List Station) (id : String) : List Station :=
  sel.filter (fun t => t.station_id ≠ id)

/-- One step of the source's keep-the-first-strict-optimum fold:
replace the accumulator only when the candidate is strictly better
(the `none` accumulator is the `Infinity` sentinel). -/
def keepBestStep {α : Type} (price : α → ℚ) (better : ℚ → ℚ → Bool)
    (acc : Option α) (c : α) : Option α :=
  match acc with
  | none => some c
  | some b => if better (price c) (price b) then some c else some b

/-- The better of a candidate and an optional earlier result, the earlier
result winning only when strictly better. -/
def mergeBest {α : Type} (price : α → ℚ) (better : ℚ → ℚ → Bool)
    (c : α) : Option α → α
  | none => c
  | some d => if better (price d) (price c) then d else c

/-- Recursive specification of the fold: the first element of the list
achieving the strict optimum (earlier elements win ties). -/
def firstBestRec {α : Type} (price : α → ℚ) (better : ℚ → ℚ → Bool) :
    List α → Option α
  | [] => none
  | c :: cs => some (mergeBest price better c (firstBestRec price better cs))

/-- Strict less-than on rationals as a Boolean preference. -/
def ltB (a b : ℚ) : Bool := decide (a < b)

/-- Strict greater-than on rationals as a Boolean preference. -/
def gtB (a b : ℚ) : Bool := decide (b < a)

/-- One iteration of the `findCheapest` loop of the source: if the
station's series is nonempty, read the last row's value for the fuel key
and replace the running cheapest when the value is truthy
(`latestPrice`, excluding both `null` and `0`) and strictly below the
running price (`Infinity` for the `none` accumulator). -/
def cheaperStep (k : FuelKey) (acc : Option (Station × ℚ)) (sd : StationData) :
    Option (Station × ℚ) :=
  match sd.data.getLast? with
  | none => acc
  | some row =>
    match fuelVal row k with
    | none => acc
    | some p =>
      if decide (p ≠ 0) && (match acc with
          | none => true
          | some b => decide (p < b.2)) then
        some (sd.station, p)
      else acc

/-- Shallow embedding of `findCheapest`: fold the loop over the stations
in order, returning `null` when the sentinel was never replaced. -/
def findCheapest (sds : List StationData) (k : FuelKey) : Option (Station × ℚ) :=
  sds.foldl (cheaperStep k) none

/-- The candidates the loop considers, in station order: each station
contributes its most recent reported value for the fuel key, when it has
one. -/
def cheapestCandidates (sds : List StationData) (k : FuelKey) : List (Station × ℚ) :=
  sds.filterMap (fun sd =>
    (sd.data.getLast?.bind (fun row => fuelVal row k)).map (fun p => (sd.station, p)))

/-- Concrete station X of the spec's cheapest-across-stations example. -/
def stationX : Station := ⟨"X1", "Station X", "Addr X"⟩

/-- Concrete station Y of the spec's cheapest-across-stations example. -/
def stationY : Station := ⟨"Y1", "Station Y", "Addr Y"⟩

/-- Station X with most-recent diesel price 1.899. -/
def sdX : StationData := ⟨stationX, [⟨0, 0, 0, some (mkRat 1899 1000), none, none⟩]⟩

/-- Station Y with most-recent diesel price 1.879. -/
def sdY : StationData := ⟨stationY, [⟨1, 0, 0, some (mkRat 1879 1000), none, none⟩]⟩

/-! ## Chart alignment (`renderMultiStationChart`) -/

/-- Master label list of `renderMultiStationChart`: the union of all
distinct timestamps across all stations (a JS `Set` filled in insertion
order), sorted ascending.  The source sorts the ISO-8601 timestamp
strings lexicographically, which for that fixed-width format coincides
with the chronological order modelled here on numeric timestamps. -/
def sortedLabels (sds : List StationData) : List Nat :=
  ((sds.flatMap (fun sd => sd.data.map PriceRow.ts)).dedup).insertionSort (· ≤ ·)

/-- One aligned data point of `renderMultiStationChart`: the station's
`priceMap` (a JS `Map` built from `(ts, row[fuel.key])` entries, where a
later entry with the same timestamp overwrites an earlier one) queried at
a master timestamp, with the source's `|| null` collapsing `undefined`
(no row at that timestamp), `null` (no value) and the falsy `0` into the
gap marker. -/
def alignedPoint (data : List PriceRow) (k : FuelKey) (ts : Nat) : Option ℚ :=
  match data.reverse.find? (fun r => r.ts == ts) with
  | none => none
  | some r =>
    match fuelVal r k with
    | none => none
    | some p => if p = 0 then none else some p

/-! ## Per-station refresh with failure isolation
(`fetchPriceHistory`, `updateChartAndAnalysis`) -/

/-- Outcome of one station's paginated history fetch: either the rows or
a thrown error (a `RemoteQueryError` message). -/
def fetchPriceHistory (outcome : Except String (List PriceRow)) : List PriceRow :=
  match outcome with
  | Except.ok rows => rows
  | Except.error _ => []

/-- The `stationDataArray` built by `updateChartAndAnalysis`: every
selected station paired with its fetched series, each per-station fetch
outcome absorbed by `fetchPriceHistory`. -/
def refreshSeries (stations : List Station)
    (outcomes : List (Except String (List PriceRow))) : List StationData :=
  (stations.zip (outcomes.map fetchPriceHistory)).map (fun p => ⟨p.1, p.2⟩)

/-- Station A of the gap-fidelity example, with a point at t1 = 100. -/
def sdA : StationData := ⟨⟨"A1", "Station A", "Addr A"⟩,
  [⟨100, 0, 0, some (mkRat 3 2), none, none⟩]⟩

/-- Station B of the gap-fidelity example, with a point only at t2 = 200. -/
def sdB : StationData := ⟨⟨"B1", "Station B", "Addr B"⟩,
  [⟨200, 0, 0, some (mkRat 8 5), none, none⟩]⟩

/-- A sample price row used by the refresh-isolation witness. -/
def rowP : PriceRow := ⟨0, 0, 0, some (mkRat 3 2), none, none⟩

/-! ## Price pattern analysis (`analyzePricePatterns`) -/

/-- The points the pattern analysis processes: the source iterates the
rows and uses `row[fuelKey]` only when it is truthy (`if (price)`), which
skips both `null` and the falsy `0`; each processed point carries the
weekday and hour-of-day of its timestamp. -/
def truthyPoints (rows : List PriceRow) (k : FuelKey) : List (Fin 7 × Fin 24 × ℚ) :=
  rows.filterMap (fun r =>
    match fuelVal r k with
    | none => none
    | some p => if p = 0 then none else some (r.day, r.hour, p))

/-- Weekday projection of the processed points (`dailyStats` input). -/
def dayPoints (pts : List (Fin 7 × Fin 24 × ℚ)) : List (Fin 7 × ℚ) :=
  pts.map (fun x => (x.1, x.2.2))

/-- Hour-of-day projection of the processed points (`hourlyStats` input). -/
def hourPoints (pts : List (Fin 7 × Fin 24 × ℚ)) : List (Fin 24 × ℚ) :=
  pts.map (fun x => (x.2.1, x.2.2))

/-- The mean of one bucket (`stat.count > 0 ? stat.sum / stat.count : null`):
the arithmetic mean of the points falling in the bucket, `null` when the
bucket received no point. -/
def bucketAvg {n : Nat} (pts : List (Fin n × ℚ)) (i : Fin n) : Option ℚ :=
  let b := (pts.filter (fun x => x.1 = i)).map Prod.snd
  if b.length = 0 then none else some (b.sum / (b.length : ℚ))

/-- The `dailyAverages`/`hourlyAverages` array: every bucket index paired
with its optional mean. -/
def averagesList {n : Nat} (pts : List (Fin n × ℚ)) : List (Fin n × Option ℚ) :=
  (List.finRange n).map (fun i => (i, bucketAvg pts i))

/-- One iteration of the source's min/max search over the averages array:
a `null` average is skipped (`if (price !== null)`), otherwise the
keep-the-first-strict-optimum step runs. -/
def optBestStep {ι : Type} (better : ℚ → ℚ → Bool)
    (acc : Option (ι × ℚ)) (c : ι × Option ℚ) : Option (ι × ℚ) :=
  match c.2 with
  | none => acc
  | some a => keepBestStep Prod.snd better acc (c.1, a)

/-- The source's `forEach` min/max search over an averages array, starting
from the `{index: -1, price: ±Infinity}` sentinel (`none`). -/
def bestOverOpt {ι : Type} (better : ℚ → ℚ → Bool)
    (l : List (ι × Option ℚ)) : Option (ι × ℚ) :=
  l.foldl (optBestStep better) none

/-- The candidates the min/max search actually compares: the buckets whose
average is non-null, in index order. -/
def candOf {n : Nat} (pts : List (Fin n × ℚ)) : List (Fin n × ℚ) :=
  (averagesList pts).filterMap (fun c => c.2.map (fun a => (c.1, a)))

/-- Result record of `analyzePricePatterns`: cheapest and dearest weekday
and hour, each with its bucket mean. -/
structure PatternResult : Type where
  cheapestDay : Fin 7 × ℚ
  dearestDay : Fin 7 × ℚ
  cheapestHour : Fin 24 × ℚ
  dearestHour : Fin 24 × ℚ
deriving DecidableEq

/-- Core of `analyzePricePatterns` on the processed points: run the four
min/max searches and return `null` when the searches found no bucket
(the source tests `cheapestDay.index === -1 || cheapestHour.index === -1`;
the four searches succeed or fail together, since each is empty exactly
when there is no processed point at all). -/
def patternOf (pts : List (Fin 7 × Fin 24 × ℚ)) : Option PatternResult :=
  match bestOverOpt ltB (averagesList (dayPoints pts)),
        bestOverOpt gtB (averagesList (dayPoints pts)),
        bestOverOpt ltB (averagesList (hourPoints pts)),
        bestOverOpt gtB (averagesList (hourPoints pts)) with
  | some cd, some dd, some ch, some dh => some ⟨cd, dd, ch, dh⟩
  | _, _, _, _ => none

/-- Shallow embedding of `analyzePricePatterns`. -/
def analyzePricePatterns (rows : List PriceRow) (k : FuelKey) : Option PatternResult :=
  patternOf (truthyPoints rows k)

/-- Weekday-bucket mean of a series, as used by the pattern analysis. -/
def dayAvg (rows : List PriceRow) (k : FuelKey) (d : Fin 7) : Option ℚ :=
  bucketAvg (dayPoints (truthyPoints rows k)) d

/-- Hour-bucket mean of a series, as used by the pattern analysis. -/
def hourAvg (rows : List PriceRow) (k : FuelKey) (h : Fin 24) : Option ℚ :=
  bucketAvg (hourPoints (truthyPoints rows k)) h

/-! ## Buy/wait advice (`computeAdvice` in the web app) -/

/-- The advice decision. -/
inductive Decision : Type
  | buy
  | wait
  | neutral
deriving DecidableEq

/-- Result record of `computeAdvice`.  The source stores the population
standard deviation `std = Math.sqrt(variance)`; this embedding stores the
exact `variance` instead (the decision rule is proved against the
`Real.sqrt` form).  `bestAvg = none` encodes the `Infinity` sentinel of
an hour bucket that received no value; `daysOffset` is the day offset of
the next best-window start (`0` for today, `1` for tomorrow). -/
structure Advice : Type where
  lastPrice : ℚ
  median : ℚ
  mean : ℚ
  variance : ℚ
  bestStart : Nat
  bestEnd : Nat
  bestAvg : Option ℚ
  decision : Decision
  daysOffset : Nat
deriving DecidableEq

/-- The `values` array of `computeAdvice`: hour-of-day and value of every
row whose value for the fuel key is non-null (`x.v != null` — note this
filter keeps `0`, unlike the truthiness tests elsewhere). -/
def adviceValues (rows : List PriceRow) (k : FuelKey) : List (Fin 24 × ℚ) :=
  rows.filterMap (fun r => (fuelVal r k).map (fun v => (r.hour, v)))

/-- The `sorted` array: the values sorted ascending (`sort((a, b) => a - b)`). -/
def sortedVals (rows : List PriceRow) (k : FuelKey) : List ℚ :=
  ((adviceValues rows k).map Prod.snd).insertionSort (· ≤ ·)

/-- `median = sorted[Math.floor(sorted.length / 2)]`. -/
def advMedian (rows : List PriceRow) (k : FuelKey) : ℚ :=
  (sortedVals rows k).getD ((sortedVals rows k).length / 2) 0

/-- `mean = sorted.reduce((a, b) => a + b, 0) / sorted.length`. -/
def advMean (rows : List PriceRow) (k : FuelKey) : ℚ :=
  (sortedVals rows k).sum / ((sortedVals rows k).length : ℚ)

/-- The population variance `std ** 2`:
`sorted.reduce((acc, v) => acc + (v - mean) ** 2, 0) / sorted.length`. -/
def advVariance (rows : List PriceRow) (k : FuelKey) : ℚ :=
  ((sortedVals rows k).map (fun v => (v - advMean rows k) ^ 2)).sum /
    ((sortedVals rows k).length : ℚ)

/-- `last = values[values.length - 1]` (guarded by `values.length ≥ 3`,
so the default is never read). -/
def advLast (rows : List PriceRow) (k : FuelKey) : Fin 24 × ℚ :=
  (adviceValues rows k).getLastD (0, 0)

/-- One entry of `hourAvg`: `x.n ? x.sum / x.n : Infinity`, with `none`
as the `Infinity` sentinel. -/
def advHourAvg (vals : List (Fin 24 × ℚ)) (h : Nat) : Option ℚ :=
  let b := (vals.filter (fun x => x.1.val = h)).map Prod.snd
  if b.length = 0 then none else some (b.sum / (b.length : ℚ))

/-- The `hourAvg` array over the 24 hour buckets. -/
def advHourAvgList (vals : List (Fin 24 × ℚ)) : List (Nat × Option ℚ) :=
  (List.range 24).map (fun h => (h, advHourAvg vals h))

/-- The `Infinity`-aware strict comparison `cur.avg < min.avg` of the
`bestHour` reduce (`none` is `Infinity`, and `Infinity < Infinity` is
false). -/
def ltInf : Option ℚ → Option ℚ → Bool
  | some a, some b => decide (a < b)
  | some _, none => true
  | none, _ => false

/-- `bestHour = hourAvg.reduce((min, cur) => cur.avg < min.avg ? cur : min,
{h: 0, avg: Infinity})`. -/
def bestHourFold (l : List (Nat × Option ℚ)) : Nat × Option ℚ :=
  l.foldl (fun m c => if ltInf c.2 m.2 then c else m) (0, none)

/-- The best window of `computeAdvice`: start hour and average of the
cheapest hour bucket. -/
def advBestHour (rows : List PriceRow) (k : FuelKey) : Nat × Option ℚ :=
  bestHourFold (advHourAvgList (adviceValues rows k))

/-- `isBargain = priceNow <= bestWindow.avg + 0.02` (vacuously true for
the `Infinity` sentinel, since every number is below `Infinity + 0.02`). -/
def advBargain (rows : List PriceRow) (k : FuelKey) : Bool :=
  match (advBestHour rows k).2 with
  | none => true
  | some a => decide ((advLast rows k).2 ≤ a + 2/100)

/-- `isExpensive = priceNow >= median + Math.max(0.03, 1.5 * std)` where
`std = Math.sqrt(variance)`.  Since the square root of an exact rational
is irrational in general, the comparison is embedded in the equivalent
square-free form `d ≥ 0.03 ∧ d² ≥ (1.5)² · variance` for
`d = priceNow - median` (the equivalence over the reals is proved in the
C2 theorem, which states the rule in the source's `max`/`sqrt` form). -/
def advExpensive (rows : List PriceRow) (k : FuelKey) : Bool :=
  decide ((3 : ℚ)/100 ≤ (advLast rows k).2 - advMedian rows k) &&
  decide ((9 : ℚ)/4 * advVariance rows k ≤ ((advLast rows k).2 - advMedian rows k) ^ 2)

/-- `decision = isBargain ? "buy" : isExpensive ? "wait" : "neutral"`,
evaluated in this order. -/
def advDecision (rows : List PriceRow) (k : FuelKey) : Decision :=
  if advBargain rows k then Decision.buy
  else if advExpensive rows k then Decision.wait
  else Decision.neutral

/-- Shallow embedding of `computeAdvice`: `null` when fewer than 3
non-null points exist, otherwise the advice record.  `curHour` is the
Berlin-local hour of the ambient `new Date()` (an external input);
`daysOffset = curHour <= bestWindow.startHour ? 0 : 1` as in the source's
`nextBest` computation. -/
def computeAdvice (rows : List PriceRow) (k : FuelKey) (curHour : Nat) : Option Advice :=
  if (adviceValues rows k).length < 3 then none
  else some
    { lastPrice := (advLast rows k).2
      median := advMedian rows k
      mean := advMean rows k
      variance := advVariance rows k
      bestStart := (advBestHour rows k).1
      bestEnd := ((advBestHour rows k).1 + 2) % 24
      bestAvg := (advBestHour rows k).2
      decision := advDecision rows k
      daysOffset := if curHour ≤ (advBestHour rows k).1 then 0 else 1 }

/-- The spec's buy condition on an advice record: current price at most
the best-window average plus 0.02 (with the `Infinity` sentinel making
the condition vacuously true). -/
def bargainProp (a : Advice) : Prop :=
  match a.bestAvg with
  | none => True
  | some q => a.lastPrice ≤ q + 2/100

/-- The spec's wait condition on an advice record, in the source's own
form: current price at least the median plus
`max(0.03, 1.5 × population standard deviation)`, the standard deviation
being the real square root of the population variance. -/
def expensiveProp (a : Advice) : Prop :=
  (a.median : ℝ) + max ((3 : ℝ)/100) ((3 : ℝ)/2 * Real.sqrt (a.variance : ℝ)) ≤
    (a.lastPrice : ℝ)

/-- The five-point example series of the spec: prices 1.80, 1.82, 1.79,
1.85, 1.78 at the same hour across five days. -/
def series5 : List PriceRow :=
  [⟨0, 0, 12, some (mkRat 180 100), none, none⟩,
   ⟨1, 1, 12, some (mkRat 182 100), none, none⟩,
   ⟨2, 2, 12, some (mkRat 179 100), none, none⟩,
   ⟨3, 3, 12, some (mkRat 185 100), none, none⟩,
   ⟨4, 4, 12, some (mkRat 178 100), none, none⟩]

/-- A four-point series with an even number of values, distinguishing the
upper-middle median from the mean of the two middle values. -/
def series4 : List PriceRow :=
  [⟨0, 0, 12, some (mkRat 178 100), none, none⟩,
   ⟨1, 1, 12, some (mkRat 179 100), none, none⟩,
   ⟨2, 2, 12, some (mkRat 181 100), none, none⟩,
   ⟨3, 3, 12, some (mkRat 182 100), none, none⟩]

/-- A two-point series for the pattern-analysis witness. -/
def rowsPat : List PriceRow :=
  [⟨0, 1, 8, some (mkRat 3 2), none, none⟩,
   ⟨1, 2, 9, some (mkRat 2 1), none, none⟩]

/-- A row whose diesel price is exactly 0 (violating the data-model
invariant), exercising the truthiness paths. -/
def rowZ : PriceRow := ⟨0, 0, 0, some 0, none, none⟩

/-- A station whose only row reports a diesel price of exactly 0. -/
def sdZ : StationData := ⟨stationX, [rowZ]⟩

/-! ## Time-window serialization (`saveSelectedTimeRange`,
`loadSelectedTimeRange`, `loadStateFromUrl` + `initializeApp`) -/

/-- A TimeWindow value: a preset-like string (such as `all` or `7d`, or
any raw string the loaders keep) or an explicit instant range.
Parametric in the instant type, since JS `Date` is an external
collaborator. -/
inductive TimeRange (I : Type) : Type
  | preset (s : List Char)
  | range (first second : I)
deriving DecidableEq

/-- The characters of the default preset string `all`. -/
def allChars : List Char := ['a', 'l', 'l']

/-- JS `split(";")` on strings modelled as character lists. -/
def splitSemi : List Char → List (List Char)
  | [] => [[]]
  | c :: rest =>
    if c = ';' then [] :: splitSemi rest
    else
      match splitSemi rest with
      | [] => [[c]]
      | g :: gs => (c :: g) :: gs

/-- Serialization of a time range (`updateUrlWithState` and
`saveSelectedTimeRange`): an explicit range becomes
`start.toISOString() + ";" + end.toISOString()`, a preset is stored as
its own string. -/
def serializeTimeRange {I : Type} (toISO : I → List Char) : TimeRange I → List Char
  | TimeRange.preset s => s
  | TimeRange.range a b => toISO a ++ ';' :: toISO b

/-- The shared parsing core of both loaders: if the string contains a
semicolon, split it and parse the first two pieces as dates
(`new Date(s)` modelled by the external parser `parseD`, with `none` for
an invalid date); when both parse the result is the explicit range, and
in every other case the raw string itself is kept. -/
def loadTimeString {I : Type} (parseD : List Char → Option I)
    (saved : List Char) : TimeRange I :=
  if ';' ∈ saved then
    match parseD ((splitSemi saved).getD 0 []),
          parseD ((splitSemi saved).getD 1 []) with
    | some a, some b => TimeRange.range a b
    | _, _ => TimeRange.preset saved
  else TimeRange.preset saved

/-- Shallow embedding of `loadSelectedTimeRange`: the stored value, with
`localStorage.getItem(...) || 'all'` turning a missing or empty value
into `all`, fed to the parsing core. -/
def loadSelectedTimeRange {I : Type} (parseD : List Char → Option I)
    (stored : Option (List Char)) : TimeRange I :=
  loadTimeString parseD
    (match stored with
      | none => allChars
      | some s => if s = [] then allChars else s)

/-- Shallow embedding of the URL path: `loadStateFromUrl` keeps the raw
`time` parameter unless it is a valid semicolon pair, and `initializeApp`
then applies `urlState.timeRange || 'all'` — a range object is truthy,
a string is truthy exactly when nonempty. -/
def urlTimeRange {I : Type} (parseD : List Char → Option I)
    (param : Option (List Char)) : TimeRange I :=
  match param with
  | none => TimeRange.preset allChars
  | some s =>
    match loadTimeString parseD s with
    | TimeRange.preset t =>
        if t = [] then TimeRange.preset allChars else TimeRange.preset t
    | r => r

/-- Decimal digit value of a character, `none` for a non-digit. -/
def decDigit (c : Char) : Option Nat :=
  if c.isDigit then some (c.toNat - 48) else none

/-- A concrete instant parser for witnesses: parses a nonempty all-digit
string as a natural number and fails otherwise, standing in for the
external `new Date(string)` validity check (`isNaN(date)`). -/
def parseNatChars (l : List Char) : Option Nat :=
  if l = [] then none
  else l.foldl (fun acc c => acc.bind (fun a => (decDigit c).map (fun d => a * 10 + d)))
    (some 0)

/-- A concrete instant printer for witnesses: decimal digits, standing in
for the external `toISOString` (injective, semicolon-free output). -/
def natToChars (n : Nat) : List Char := Nat.toDigits 10 n

/-! ### Theorems -/

theorem fetchPaginatedData_spec {α : Type} :
    ∀ (n : Nat) (rows : List α), rows.length ≤ n →
      (fetchPaginatedData rows).1 = rows ∧
      (fetchPaginatedData rows).2 = rows.length / PAGE_SIZE + 1 := by
  intro n
  induction n with
  | zero =>
      intro rows hlen
      have hrows : rows = [] := List.length_eq_zero.mp (Nat.le_zero.mp hlen)
      subst hrows
      rw [fetchPaginatedData]
      simp [PAGE_SIZE]
  | succ n ih =>
      intro rows hlen
      rw [fetchPaginatedData]
      by_cases h : (rows.take PAGE_SIZE).length < PAGE_SIZE
      · rw [dif_pos h]
        rw [List.length_take] at h
        simp only [PAGE_SIZE] at h
        constructor
        · show rows.take PAGE_SIZE = rows
          exact List.take_of_length_le (by simp only [PAGE_SIZE]; omega)
        · show 1 = rows.length / PAGE_SIZE + 1
          simp only [PAGE_SIZE]
          omega
      · rw [dif_neg h]
        rw [List.length_take] at h
        simp only [PAGE_SIZE] at h
        have hdrop : (rows.drop PAGE_SIZE).length ≤ n := by
          rw [List.length_drop]
          simp only [PAGE_SIZE]
          omega
        obtain ⟨ih1, ih2⟩ := ih (rows.drop PAGE_SIZE) hdrop
        constructor
        · show rows.take PAGE_SIZE ++ (fetchPaginatedData (rows.drop PAGE_SIZE)).1 = rows
          rw [ih1]
          exact List.take_append_drop PAGE_SIZE rows
        · show (fetchPaginatedData (rows.drop PAGE_SIZE)).2 + 1 = rows.length / PAGE_SIZE + 1
          rw [ih2]
          simp only [List.length_drop, PAGE_SIZE]
          omega

/-- C1: for a query yielding exactly N rows with page size P = 1000,
`fetchPaginatedData` issues `ceil((N+1)/P)` HTTP requests when N is an
exact multiple of P and `ceil(N/P)` requests otherwise (so the loop stops
on a short page, not on an empty page: an exact-multiple total costs one
confirming extra request), and returns the concatenation of all pages:
exactly the N rows, in their original order. -/
theorem C1_pagination {α : Type} (rows : List α) :
    (fetchPaginatedData rows).1 = rows ∧
    (fetchPaginatedData rows).2 =
      (if rows.length % 1000 = 0
        then (rows.length + 1 + 999) / 1000
        else (rows.length + 999) / 1000) := by
  obtain ⟨h1, h2⟩ := fetchPaginatedData_spec rows.length rows le_rfl
  refine ⟨h1, ?_⟩
  rw [h2]
  simp only [PAGE_SIZE]
  by_cases hmod : rows.length % 1000 = 0
  · rw [if_pos hmod]; omega
  · rw [if_neg hmod]; omega

/-! ## Data model -/

theorem validRow_fuelVal {r : PriceRow} (h : validRow r = true) (k : FuelKey)
    {p : ℚ} (hp : fuelVal r k = some p) : 0 < p := by
  simp only [validRow, Bool.and_eq_true] at h
  obtain ⟨⟨h1, h2⟩, h3⟩ := h
  cases k with
  | diesel =>
      simp only [fuelVal] at hp
      rw [hp] at h1
      simpa [validPrice] using h1
  | superE5 =>
      simp only [fuelVal] at hp
      rw [hp] at h2
      simpa [validPrice] using h2
  | e10 =>
      simp only [fuelVal] at hp
      rw [hp] at h3
      simpa [validPrice] using h3

theorem validSeries_mem {rows : List PriceRow} (h : validSeries rows = true)
    {r : PriceRow} (hr : r ∈ rows) : validRow r = true := by
  simp only [validSeries, List.all_eq_true] at h
  exact h r hr

theorem validAll_mem {sds : List StationData} (h : validAll sds = true)
    {sd : StationData} (hsd : sd ∈ sds) : validSeries sd.data = true := by
  simp only [validAll, List.all_eq_true] at h
  exact h sd hsd

/-! ## Selection mutations (`handleResultClick` push guard, `removeStation`) -/

/-- C8: the selected-stations list never holds two stations with the same
external id and insertion order is preserved.  `addStation` is a no-op
when the id is already present and otherwise appends at the end (so it
preserves the no-duplicate invariant), and `removeStation` removes
exactly the entries carrying the given id — a no-op when the id is
absent — leaving the rest in their original relative order (the result
is a sublist of the input) and keeping the invariant. -/
theorem C8_selection_invariant (sel : List Station) (s : Station) (id : String)
    (hnodup : (selectionIds sel).Nodup) :
    (s.station_id ∈ selectionIds sel → addStation sel s = sel) ∧
    (s.station_id ∉ selectionIds sel → addStation sel s = sel ++ [s]) ∧
    (selectionIds (addStation sel s)).Nodup ∧
    (removeStation sel id).Sublist sel ∧
    (id ∉ selectionIds sel → removeStation sel id = sel) ∧
    (∀ t, t ∈ removeStation sel id ↔ t ∈ sel ∧ t.station_id ≠ id) ∧
    (selectionIds (removeStation sel id)).Nodup := by
  have hmem : (sel.any (fun t => t.station_id = s.station_id) = true) ↔
      s.station_id ∈ selectionIds sel := by
    rw [List.any_eq_true]
    constructor
    · rintro ⟨t, ht, hts⟩
      simp only [decide_eq_true_eq] at hts
      exact hts ▸ List.mem_map_of_mem Station.station_id ht
    · intro hin
      obtain ⟨t, ht, hts⟩ := List.mem_map.mp hin
      exact ⟨t, ht, by simp [hts]⟩
  refine ⟨?_, ?_, ?_, ?_, ?_, ?_, ?_⟩
  · intro hin
    simp only [addStation, if_pos (hmem.mpr hin)]
  · intro hout
    have : ¬ sel.any (fun t => t.station_id = s.station_id) = true := fun hc => hout (hmem.mp hc)
    simp only [addStation, if_neg this]
  · by_cases hin : s.station_id ∈ selectionIds sel
    · simp only [addStation, if_pos (hmem.mpr hin)]
      exact hnodup
    · have : ¬ sel.any (fun t => t.station_id = s.station_id) = true := fun hc => hin (hmem.mp hc)
      simp only [addStation, if_neg this, selectionIds, List.map_append, List.map_singleton]
      rw [List.nodup_append]
      exact ⟨hnodup, List.nodup_singleton _, by
        intro a ha hb
        simp only [List.mem_singleton] at hb
        exact hin (hb ▸ ha)⟩
  · exact List.filter_sublist sel
  · intro hout
    apply List.filter_eq_self.mpr
    intro t ht
    simp only [decide_eq_true_eq, ne_eq]
    intro hc
    exact hout (hc ▸ List.mem_map_of_mem Station.station_id ht)
  · intro t
    simp [removeStation, List.mem_filter]
  · have hsub : List.Sublist (removeStation sel id) sel := List.filter_sublist sel
    exact (hsub.map Station.station_id).nodup hnodup

/-- Witness for C8 at a concrete selection. -/
theorem C8_selection_invariant_witness :
    let x : Station := ⟨"X1", "X", "Ax"⟩
    let y : Station := ⟨"Y1", "Y", "Ay"⟩
    addStation [x] y = [x, y] ∧ removeStation [x, y] "X1" = [y] := by
  intro x y
  have h := C8_selection_invariant [x] y "X1" (by decide)
  constructor
  · exact h.2.1 (by decide)
  · decide

/-! ## Generic first-strict-optimum fold

The source repeatedly uses the pattern `if (cand.price < best.price) best = cand`
over a list, starting from an infinite sentinel: a left fold that keeps the
first element achieving the strict optimum.  We prove once, for a generic
strict-preference Boolean `better`, that this fold equals a simple
recursive specification. -/

theorem keepBestStep_none {α : Type} (price : α → ℚ) (better : ℚ → ℚ → Bool)
    (c : α) : keepBestStep price better none c = some c := rfl

theorem keepBestStep_some {α : Type} (price : α → ℚ) (better : ℚ → ℚ → Bool)
    (b c : α) : keepBestStep price better (some b) c =
      if better (price c) (price b) then some c else some b := rfl

theorem mergeBest_none {α : Type} (price : α → ℚ) (better : ℚ → ℚ → Bool)
    (c : α) : mergeBest price better c none = c := rfl

theorem mergeBest_some {α : Type} (price : α → ℚ) (better : ℚ → ℚ → Bool)
    (c d : α) : mergeBest price better c (some d) =
      if better (price d) (price c) then d else c := rfl

theorem firstBestRec_nil {α : Type} (price : α → ℚ) (better : ℚ → ℚ → Bool) :
    firstBestRec price better ([] : List α) = none := rfl

theorem firstBestRec_cons {α : Type} (price : α → ℚ) (better : ℚ → ℚ → Bool)
    (c : α) (cs : List α) : firstBestRec price better (c :: cs) =
      some (mergeBest price better c (firstBestRec price better cs)) := rfl

theorem foldl_keepBestStep_some {α : Type} (price : α → ℚ) (better : ℚ → ℚ → Bool)
    (htrans : ∀ a b c, better a b = true → better b c = true → better a c = true)
    (hnegtrans : ∀ a b c, better a b = false → better b c = false → better a c = false)
    (l : List α) (a : α) :
    l.foldl (keepBestStep price better) (some a) =
      some (mergeBest price better a (firstBestRec price better l)) := by
  induction l generalizing a with
  | nil => rfl
  | cons c cs ih =>
      rw [List.foldl_cons, keepBestStep_some, firstBestRec_cons, mergeBest_some]
      by_cases hca : better (price c) (price a) = true
      · rw [if_pos hca, ih c]
        congr 1
        cases hcs : firstBestRec price better cs with
        | none =>
            simp only [mergeBest]
            rw [if_pos hca]
        | some d =>
            simp only [mergeBest]
            by_cases hdc : better (price d) (price c) = true
            · rw [if_pos hdc, if_pos (htrans _ _ _ hdc hca)]
            · rw [if_neg hdc, if_pos hca]
      · rw [if_neg hca, ih a]
        rw [Bool.not_eq_true] at hca
        congr 1
        cases hcs : firstBestRec price better cs with
        | none =>
            simp only [mergeBest]
            rw [if_neg (by rw [hca]; exact Bool.false_ne_true)]
        | some d =>
            simp only [mergeBest]
            by_cases hdc : better (price d) (price c) = true
            · rw [if_pos hdc]
            · rw [if_neg hdc]
              rw [Bool.not_eq_true] at hdc
              have hda := hnegtrans _ _ _ hdc hca
              rw [if_neg (by rw [hda]; exact Bool.false_ne_true),
                if_neg (by rw [hca]; exact Bool.false_ne_true)]

theorem foldl_keepBestStep_none {α : Type} (price : α → ℚ) (better : ℚ → ℚ → Bool)
    (htrans : ∀ a b c, better a b = true → better b c = true → better a c = true)
    (hnegtrans : ∀ a b c, better a b = false → better b c = false → better a c = false)
    (l : List α) :
    l.foldl (keepBestStep price better) none = firstBestRec price better l := by
  cases l with
  | nil => rfl
  | cons c cs =>
      rw [List.foldl_cons, keepBestStep_none, firstBestRec_cons]
      exact foldl_keepBestStep_some price better htrans hnegtrans cs c

theorem firstBestRec_mem {α : Type} {price : α → ℚ} {better : ℚ → ℚ → Bool}
    {l : List α} {c : α} (h : firstBestRec price better l = some c) : c ∈ l := by
  induction l with
  | nil => simp [firstBestRec_nil] at h
  | cons b bs ih =>
      rw [firstBestRec_cons] at h
      have hc : mergeBest price better b (firstBestRec price better bs) = c :=
        Option.some_inj.mp h
      cases hbs : firstBestRec price better bs with
      | none =>
          rw [hbs, mergeBest_none] at hc
          exact hc ▸ List.mem_cons_self b bs
      | some d =>
          rw [hbs, mergeBest_some] at hc
          by_cases hdb : better (price d) (price b) = true
          · rw [if_pos hdb] at hc
            exact List.mem_cons_of_mem b (ih (hc ▸ hbs))
          · rw [if_neg hdb] at hc
            exact hc ▸ List.mem_cons_self b bs

theorem firstBestRec_best {α : Type} {price : α → ℚ} {better : ℚ → ℚ → Bool}
    (hirr : ∀ a, better a a = false)
    (hasymm : ∀ a b, better a b = true → better b a = false)
    (hnegtrans : ∀ a b c, better a b = false → better b c = false → better a c = false)
    {l : List α} {c : α} (h : firstBestRec price better l = some c) :
    ∀ d ∈ l, better (price d) (price c) = false := by
  induction l generalizing c with
  | nil => simp [firstBestRec_nil] at h
  | cons b bs ih =>
      rw [firstBestRec_cons, Option.some_inj] at h
      intro d hd
      cases hbs : firstBestRec price better bs with
      | none =>
          rw [hbs, mergeBest_none] at h
          subst h
          rcases List.mem_cons.mp hd with rfl | hdbs
          · exact hirr _
          · exfalso
            cases bs with
            | nil => cases hdbs
            | cons x xs => rw [firstBestRec_cons] at hbs; cases hbs
      | some e =>
          rw [hbs, mergeBest_some] at h
          by_cases heb : better (price e) (price b) = true
          · rw [if_pos heb] at h
            subst h
            rcases List.mem_cons.mp hd with rfl | hdbs
            · exact hasymm _ _ heb
            · exact ih hbs d hdbs
          · rw [if_neg heb] at h
            subst h
            rcases List.mem_cons.mp hd with rfl | hdbs
            · exact hirr _
            · have he := ih hbs d hdbs
              rw [Bool.not_eq_true] at heb
              exact hnegtrans _ _ _ he heb

theorem firstBestRec_first {α : Type} {price : α → ℚ} {better : ℚ → ℚ → Bool}
    (hirr : ∀ a, better a a = false)
    {l : List α} {c : α} (h : firstBestRec price better l = some c) :
    l.find? (fun d => !(better (price c) (price d))) = some c := by
  induction l with
  | nil => simp [firstBestRec_nil] at h
  | cons b bs ih =>
      rw [firstBestRec_cons] at h
      have hc : mergeBest price better b (firstBestRec price better bs) = c :=
        Option.some_inj.mp h
      cases hbs : firstBestRec price better bs with
      | none =>
          rw [hbs, mergeBest_none] at hc
          subst hc
          rw [List.find?_cons_of_pos]
          simp [hirr]
      | some d =>
          rw [hbs, mergeBest_some] at hc
          by_cases hdb : better (price d) (price b) = true
          · rw [if_pos hdb] at hc
            subst hc
            rw [List.find?_cons_of_neg, ih hbs]
            simp [hdb]
          · rw [if_neg hdb] at hc
            subst hc
            rw [List.find?_cons_of_pos]
            simp [hirr]

theorem ltB_irr : ∀ a : ℚ, ltB a a = false := by
  intro a; simp [ltB]

theorem ltB_asymm : ∀ a b : ℚ, ltB a b = true → ltB b a = false := by
  intro a b h; simp only [ltB, decide_eq_true_eq] at h; simp [ltB, le_of_lt h]

theorem ltB_trans : ∀ a b c : ℚ, ltB a b = true → ltB b c = true → ltB a c = true := by
  intro a b c h1 h2
  simp only [ltB, decide_eq_true_eq] at h1 h2 ⊢
  exact lt_trans h1 h2

theorem ltB_negtrans : ∀ a b c : ℚ, ltB a b = false → ltB b c = false → ltB a c = false := by
  intro a b c h1 h2
  simp only [ltB, decide_eq_false_iff_not, not_lt] at h1 h2 ⊢
  exact le_trans h2 h1

theorem gtB_irr : ∀ a : ℚ, gtB a a = false := by
  intro a; simp [gtB]

theorem gtB_asymm : ∀ a b : ℚ, gtB a b = true → gtB b a = false := by
  intro a b h; simp only [gtB, decide_eq_true_eq] at h; simp [gtB, le_of_lt h]

theorem gtB_trans : ∀ a b c : ℚ, gtB a b = true → gtB b c = true → gtB a c = true := by
  intro a b c h1 h2
  simp only [gtB, decide_eq_true_eq] at h1 h2 ⊢
  exact lt_trans h2 h1

theorem gtB_negtrans : ∀ a b c : ℚ, gtB a b = false → gtB b c = false → gtB a c = false := by
  intro a b c h1 h2
  simp only [gtB, decide_eq_false_iff_not, not_lt] at h1 h2 ⊢
  exact le_trans h1 h2

/-! ## Cheapest across stations (`findCheapest` in `analyzeMultiStationPrices`) -/

theorem cheaperStep_eq {k : FuelKey} {sd : StationData}
    (hv : validSeries sd.data = true) (acc : Option (Station × ℚ)) :
    cheaperStep k acc sd =
      match (sd.data.getLast?.bind (fun row => fuelVal row k)).map
          (fun p => (sd.station, p)) with
      | none => acc
      | some c => keepBestStep Prod.snd ltB acc c := by
  cases hlast : sd.data.getLast? with
  | none => simp [cheaperStep, hlast]
  | some row =>
      cases hval : fuelVal row k with
      | none => simp [cheaperStep, hlast, hval]
      | some p =>
          have hrow : row ∈ sd.data := List.mem_of_getLast?_eq_some hlast
          have hpos : 0 < p := validRow_fuelVal (validSeries_mem hv hrow) k hval
          have hne : p ≠ 0 := ne_of_gt hpos
          cases acc with
          | none => simp [cheaperStep, hlast, hval, keepBestStep, hne]
          | some b => simp [cheaperStep, hlast, hval, keepBestStep, hne, ltB]

theorem foldl_cheaperStep_eq {k : FuelKey} :
    ∀ (sds : List StationData), validAll sds = true →
    ∀ acc, sds.foldl (cheaperStep k) acc =
      (cheapestCandidates sds k).foldl (keepBestStep Prod.snd ltB) acc := by
  intro sds
  induction sds with
  | nil => intro _ acc; rfl
  | cons sd rest ih =>
      intro hv acc
      have hvs : validSeries sd.data = true := validAll_mem hv (List.mem_cons_self sd rest)
      have hvr : validAll rest = true := by
        simp only [validAll, List.all_eq_true] at hv ⊢
        intro x hx; exact hv x (List.mem_cons_of_mem sd hx)
      rw [List.foldl_cons, cheaperStep_eq hvs acc]
      cases hc : (sd.data.getLast?.bind (fun row => fuelVal row k)).map
          (fun p => (sd.station, p)) with
      | none =>
          have hcand : cheapestCandidates (sd :: rest) k = cheapestCandidates rest k := by
            simp only [cheapestCandidates, List.filterMap_cons]
            rw [hc]
          rw [hcand]
          exact ih hvr acc
      | some c =>
          have hcand : cheapestCandidates (sd :: rest) k =
              c :: cheapestCandidates rest k := by
            simp only [cheapestCandidates, List.filterMap_cons]
            rw [hc]
          rw [hcand, List.foldl_cons]
          exact ih hvr (keepBestStep Prod.snd ltB acc c)

/-- C4: under the data-model invariant (reported prices are positive),
`findCheapest` returns `null` exactly when every station has no points or
no reported value of that fuel in its most recent point; otherwise it
returns a station-price pair that is among the candidates (each station's
last value in series order), whose price is minimal over all candidates,
and which is the first candidate in selection order achieving that
minimum (ties resolved to the first station encountered). -/
theorem C4_cheapest_across_stations (sds : List StationData) (k : FuelKey)
    (hv : validAll sds = true) :
    (findCheapest sds k = none ↔ cheapestCandidates sds k = []) ∧
    (∀ s p, findCheapest sds k = some (s, p) →
      (s, p) ∈ cheapestCandidates sds k ∧
      (∀ c ∈ cheapestCandidates sds k, p ≤ c.2) ∧
      (cheapestCandidates sds k).find? (fun c => decide (c.2 ≤ p)) = some (s, p)) := by
  have heq : findCheapest sds k = firstBestRec Prod.snd ltB (cheapestCandidates sds k) := by
    rw [findCheapest, foldl_cheaperStep_eq sds hv none,
      foldl_keepBestStep_none _ _ ltB_trans ltB_negtrans]
  constructor
  · rw [heq]
    cases hl : cheapestCandidates sds k with
    | nil => simp [firstBestRec_nil]
    | cons c cs => simp [firstBestRec_cons]
  · intro s p hfind
    rw [heq] at hfind
    refine ⟨firstBestRec_mem hfind, ?_, ?_⟩
    · intro c hcmem
      have hb := firstBestRec_best ltB_irr ltB_asymm ltB_negtrans hfind c hcmem
      simp only [ltB, decide_eq_false_iff_not, not_lt] at hb
      exact hb
    · have hf := firstBestRec_first ltB_irr hfind
      have hfun : (fun d : Station × ℚ => !(ltB (Prod.snd (s, p)) (Prod.snd d))) =
          (fun c : Station × ℚ => decide (c.2 ≤ p)) := by
        funext c
        by_cases hc2 : p < c.2
        · have hnle : ¬ c.2 ≤ p := not_le.mpr hc2
          simp [ltB, hc2, hnle]
        · have hle : c.2 ≤ p := not_lt.mp hc2
          simp [ltB, hc2, hle]
      rw [hfun] at hf
      exact hf

/-- Witness for C4 on the spec's example: with X at 1.899 and Y at 1.879
as most-recent diesel prices, the result is Y at 1.879, which is a
candidate and minimal among candidates. -/
theorem C4_cheapest_witness :
    ((stationY, mkRat 1879 1000) ∈ cheapestCandidates [sdX, sdY] FuelKey.diesel) ∧
    (∀ c ∈ cheapestCandidates [sdX, sdY] FuelKey.diesel, mkRat 1879 1000 ≤ c.2) := by
  have h := (C4_cheapest_across_stations [sdX, sdY] FuelKey.diesel (by decide)).2
    stationY (mkRat 1879 1000) (by decide)
  exact ⟨h.1, h.2.1⟩

/-- C5: the chart labels are the sorted, duplicate-free union of all
timestamps occurring in any station's series; and for every station and
master timestamp, the aligned value equals the station's reported price
at exactly that timestamp (the latest row with that timestamp, values
positive per the data model) and is the gap marker `none` otherwise —
never `0` (for any input) and never an interpolated value, and in
particular `none` whenever the station has no row at that timestamp. -/
theorem C5_chart_alignment (sds : List StationData) (k : FuelKey) :
    ((sortedLabels sds).Sorted (· ≤ ·) ∧ (sortedLabels sds).Nodup ∧
      (∀ t, t ∈ sortedLabels sds ↔ ∃ sd ∈ sds, ∃ r ∈ sd.data, r.ts = t)) ∧
    (∀ data, validSeries data = true → ∀ ts,
      alignedPoint data k ts =
        (data.reverse.find? (fun r => r.ts == ts)).bind (fun r => fuelVal r k)) ∧
    (∀ data ts, alignedPoint data k ts ≠ some 0) ∧
    (∀ data ts, (∀ r ∈ data, r.ts ≠ ts) → alignedPoint data k ts = none) := by
  refine ⟨⟨?_, ?_, ?_⟩, ?_, ?_, ?_⟩
  · exact List.sorted_insertionSort _ _
  · exact ((List.perm_insertionSort _ _).nodup_iff).mpr (List.nodup_dedup _)
  · intro t
    rw [sortedLabels, (List.perm_insertionSort _ _).mem_iff, List.mem_dedup,
      List.mem_flatMap]
    constructor
    · rintro ⟨sd, hsd, ht⟩
      obtain ⟨r, hr, hrt⟩ := List.mem_map.mp ht
      exact ⟨sd, hsd, r, hr, hrt⟩
    · rintro ⟨sd, hsd, r, hr, hrt⟩
      exact ⟨sd, hsd, hrt ▸ List.mem_map_of_mem PriceRow.ts hr⟩
  · intro data hv ts
    cases hf : data.reverse.find? (fun r => r.ts == ts) with
    | none => simp [alignedPoint, hf]
    | some r =>
        have hr : r ∈ data := List.mem_reverse.mp (List.mem_of_find?_eq_some hf)
        cases hval : fuelVal r k with
        | none => simp [alignedPoint, hf, hval]
        | some p =>
            have hpos : 0 < p := validRow_fuelVal (validSeries_mem hv hr) k hval
            simp [alignedPoint, hf, hval, hpos.ne']
  · intro data ts
    cases hf : data.reverse.find? (fun r => r.ts == ts) with
    | none => simp [alignedPoint, hf]
    | some r =>
        cases hval : fuelVal r k with
        | none => simp [alignedPoint, hf, hval]
        | some p =>
            by_cases hp : p = 0
            · simp [alignedPoint, hf, hval, hp]
            · simp [alignedPoint, hf, hval, hp]
  · intro data ts hno
    have hf : data.reverse.find? (fun r => r.ts == ts) = none := by
      rw [List.find?_eq_none]
      intro r hrr
      simp only [beq_eq_false_iff_ne, ne_eq, Bool.not_eq_true, beq_iff_eq]
      exact hno r (List.mem_reverse.mp hrr)
    simp [alignedPoint, hf]

/-- Witness for C5: station A has a point at t1 = 100 and station B does
not, so t1 is a master label and B's aligned value at t1 is the gap
marker. -/
theorem C5_alignment_witness :
    (100 ∈ sortedLabels [sdA, sdB]) ∧
    alignedPoint sdB.data FuelKey.diesel 100 = none := by
  have h := C5_chart_alignment [sdA, sdB] FuelKey.diesel
  constructor
  · exact (h.1.2.2 100).mpr
      ⟨sdA, by simp, ⟨100, 0, 0, some (mkRat 3 2), none, none⟩, by decide, rfl⟩
  · exact h.2.2.2 sdB.data 100 (by decide)

/-- C6: a fetch failure for one station yields an empty series for that
station while the refresh still completes: the result pairs every
selected station with a series, a station whose outcome was an error gets
the empty series, and every station whose fetch succeeded keeps its rows
untouched — one station's failure never aborts the whole refresh. -/
theorem C6_refresh_isolation (stations : List Station)
    (outcomes : List (Except String (List PriceRow)))
    (hlen : outcomes.length = stations.length) :
    (refreshSeries stations outcomes).length = stations.length ∧
    (∀ (i : Nat) s e, stations[i]? = some s → outcomes[i]? = some (Except.error e) →
      (refreshSeries stations outcomes)[i]? = some (StationData.mk s [])) ∧
    (∀ (i : Nat) s rows, stations[i]? = some s → outcomes[i]? = some (Except.ok rows) →
      (refreshSeries stations outcomes)[i]? = some (StationData.mk s rows)) := by
  refine ⟨?_, ?_, ?_⟩
  · simp [refreshSeries, List.length_zip, hlen]
  · intro i s e hs ho
    have hz : (stations.zip (outcomes.map fetchPriceHistory))[i]? = some (s, []) := by
      apply List.getElem?_zip_eq_some.mpr
      refine ⟨hs, ?_⟩
      rw [List.getElem?_map, ho]
      rfl
    simp [refreshSeries, List.getElem?_map, hz]
  · intro i s rows hs ho
    have hz : (stations.zip (outcomes.map fetchPriceHistory))[i]? = some (s, rows) := by
      apply List.getElem?_zip_eq_some.mpr
      refine ⟨hs, ?_⟩
      rw [List.getElem?_map, ho]
      rfl
    simp [refreshSeries, List.getElem?_map, hz]

/-- Witness for C6: with station X succeeding and station Y failing, Y
gets an empty series and X keeps its rows. -/
theorem C6_refresh_isolation_witness :
    (refreshSeries [stationX, stationY]
      [Except.ok [rowP], Except.error "HTTP error"])[1]? = some (StationData.mk stationY []) ∧
    (refreshSeries [stationX, stationY]
      [Except.ok [rowP], Except.error "HTTP error"])[0]? = some (StationData.mk stationX [rowP]) := by
  have h := C6_refresh_isolation [stationX, stationY]
    [Except.ok [rowP], Except.error "HTTP error"] rfl
  exact ⟨h.2.1 1 stationY "HTTP error" rfl rfl, h.2.2 0 stationX [rowP] rfl rfl⟩

theorem foldl_optBestStep {ι : Type} (better : ℚ → ℚ → Bool)
    (l : List (ι × Option ℚ)) :
    ∀ acc, l.foldl (optBestStep better) acc =
      (l.filterMap (fun c => c.2.map (fun a => (c.1, a)))).foldl
        (keepBestStep Prod.snd better) acc := by
  induction l with
  | nil => intro acc; rfl
  | cons c cs ih =>
      intro acc
      rw [List.foldl_cons, List.filterMap_cons]
      cases hc2 : c.2 with
      | none =>
          simp only [hc2, Option.map_none']
          show List.foldl (optBestStep better) (optBestStep better acc c) cs = _
          rw [show optBestStep better acc c = acc by simp [optBestStep, hc2]]
          exact ih acc
      | some a =>
          simp only [hc2, Option.map_some']
          rw [List.foldl_cons]
          show List.foldl (optBestStep better) (optBestStep better acc c) cs = _
          rw [show optBestStep better acc c = keepBestStep Prod.snd better acc (c.1, a) by
            simp [optBestStep, hc2]]
          exact ih _

theorem bestOverOpt_eq {ι : Type} (better : ℚ → ℚ → Bool)
    (htrans : ∀ a b c, better a b = true → better b c = true → better a c = true)
    (hnegtrans : ∀ a b c, better a b = false → better b c = false → better a c = false)
    (l : List (ι × Option ℚ)) :
    bestOverOpt better l =
      firstBestRec Prod.snd better (l.filterMap (fun c => c.2.map (fun a => (c.1, a)))) := by
  rw [bestOverOpt, foldl_optBestStep better l none,
    foldl_keepBestStep_none _ _ htrans hnegtrans]

theorem firstBestRec_eq_none {α : Type} {price : α → ℚ} {better : ℚ → ℚ → Bool}
    {l : List α} : firstBestRec price better l = none ↔ l = [] := by
  cases l with
  | nil => simp [firstBestRec_nil]
  | cons c cs => simp [firstBestRec_cons]

theorem mem_candOf {n : Nat} {pts : List (Fin n × ℚ)} {i : Fin n} {a : ℚ} :
    (i, a) ∈ candOf pts ↔ bucketAvg pts i = some a := by
  rw [candOf, List.mem_filterMap]
  constructor
  · rintro ⟨c, hc, hmap⟩
    obtain ⟨j, _, hj⟩ := List.mem_map.mp hc
    obtain ⟨b, hb, hba⟩ := Option.map_eq_some'.mp hmap
    subst hj
    simp only [Prod.mk.injEq] at hba
    obtain ⟨hji, hbaa⟩ := hba
    subst hji
    subst hbaa
    exact hb
  · intro hb
    refine ⟨(i, bucketAvg pts i), ?_, ?_⟩
    · exact List.mem_map_of_mem _ (List.mem_finRange i)
    · rw [hb]
      rfl

theorem bucketAvg_none_iff {n : Nat} (pts : List (Fin n × ℚ)) (i : Fin n) :
    bucketAvg pts i = none ↔ pts.filter (fun x => x.1 = i) = [] := by
  simp only [bucketAvg]
  by_cases hb : ((pts.filter (fun x => x.1 = i)).map Prod.snd).length = 0
  · rw [if_pos hb]
    simp only [List.length_map, List.length_eq_zero] at hb
    simp [hb]
  · rw [if_neg hb]
    simp only [List.length_map, List.length_eq_zero] at hb
    simp [hb]

theorem candOf_nil_iff {n : Nat} {pts : List (Fin n × ℚ)} :
    candOf pts = [] ↔ pts = [] := by
  constructor
  · intro hc
    cases hp : pts with
    | nil => rfl
    | cons p ps =>
        exfalso
        have hmem : p ∈ pts := hp ▸ List.mem_cons_self p ps
        have hfil : p ∈ pts.filter (fun x => x.1 = p.1) :=
          List.mem_filter.mpr ⟨hmem, by simp⟩
        have hne : pts.filter (fun x => x.1 = p.1) ≠ [] := List.ne_nil_of_mem hfil
        cases ha : bucketAvg pts p.1 with
        | none => exact hne ((bucketAvg_none_iff pts p.1).mp ha)
        | some a =>
            have : (p.1, a) ∈ candOf pts := mem_candOf.mpr ha
            rw [hc] at this
            cases this
  · intro hp
    subst hp
    rw [candOf, List.filterMap_eq_nil_iff]
    intro c hc
    obtain ⟨i, _, rfl⟩ := List.mem_map.mp hc
    have hnone : bucketAvg ([] : List (Fin n × ℚ)) i = none :=
      (bucketAvg_none_iff _ _).mpr rfl
    rw [hnone]
    rfl

theorem bestOverOpt_eq_cand {n : Nat} (better : ℚ → ℚ → Bool)
    (htrans : ∀ a b c, better a b = true → better b c = true → better a c = true)
    (hnegtrans : ∀ a b c, better a b = false → better b c = false → better a c = false)
    (pts : List (Fin n × ℚ)) :
    bestOverOpt better (averagesList pts) = firstBestRec Prod.snd better (candOf pts) :=
  bestOverOpt_eq better htrans hnegtrans (averagesList pts)

/-- C7: under the data-model invariant, the pattern analysis partitions
exactly the non-null points into 7 weekday and 24 hour buckets (first
conjunct: the processed points are the non-null points), returns `null`
exactly when no bucket received a point, and otherwise reports, among the
buckets that received at least one point, a weekday and an hour of
minimal bucket mean and a weekday and an hour of maximal bucket mean —
so a bucket with no priced point is excluded from the min/max search and
is never treated as mean zero. -/
theorem C7_pattern_analysis (rows : List PriceRow) (k : FuelKey)
    (hv : validSeries rows = true) :
    (truthyPoints rows k =
      rows.filterMap (fun r => (fuelVal r k).map (fun p => (r.day, r.hour, p)))) ∧
    (analyzePricePatterns rows k = none ↔ truthyPoints rows k = []) ∧
    (∀ res, analyzePricePatterns rows k = some res →
      (dayAvg rows k res.cheapestDay.1 = some res.cheapestDay.2 ∧
        ∀ (d : Fin 7) a, dayAvg rows k d = some a → res.cheapestDay.2 ≤ a) ∧
      (dayAvg rows k res.dearestDay.1 = some res.dearestDay.2 ∧
        ∀ (d : Fin 7) a, dayAvg rows k d = some a → a ≤ res.dearestDay.2) ∧
      (hourAvg rows k res.cheapestHour.1 = some res.cheapestHour.2 ∧
        ∀ (h : Fin 24) a, hourAvg rows k h = some a → res.cheapestHour.2 ≤ a) ∧
      (hourAvg rows k res.dearestHour.1 = some res.dearestHour.2 ∧
        ∀ (h : Fin 24) a, hourAvg rows k h = some a → a ≤ res.dearestHour.2)) := by
  have hday := bestOverOpt_eq_cand ltB ltB_trans ltB_negtrans
    (dayPoints (truthyPoints rows k))
  have hday2 := bestOverOpt_eq_cand gtB gtB_trans gtB_negtrans
    (dayPoints (truthyPoints rows k))
  have hhour := bestOverOpt_eq_cand ltB ltB_trans ltB_negtrans
    (hourPoints (truthyPoints rows k))
  have hhour2 := bestOverOpt_eq_cand gtB gtB_trans gtB_negtrans
    (hourPoints (truthyPoints rows k))
  refine ⟨?_, ?_, ?_⟩
  · rw [truthyPoints]
    apply List.filterMap_congr
    intro r hr
    cases hval : fuelVal r k with
    | none => rfl
    | some p =>
        have hpos : 0 < p := validRow_fuelVal (validSeries_mem hv hr) k hval
        simp [hpos.ne']
  · rw [analyzePricePatterns, patternOf, hday, hday2, hhour, hhour2]
    constructor
    · intro hnone
      by_contra hne
      have hcne : candOf (dayPoints (truthyPoints rows k)) ≠ [] := by
        intro hc
        exact hne (List.map_eq_nil_iff.mp (candOf_nil_iff.mp hc))
      have hcne2 : candOf (hourPoints (truthyPoints rows k)) ≠ [] := by
        intro hc
        exact hne (List.map_eq_nil_iff.mp (candOf_nil_iff.mp hc))
      rcases h1 : firstBestRec Prod.snd ltB (candOf (dayPoints (truthyPoints rows k)))
        with _ | cd
      · exact hcne (firstBestRec_eq_none.mp h1)
      rcases h2 : firstBestRec Prod.snd gtB (candOf (dayPoints (truthyPoints rows k)))
        with _ | dd
      · exact hcne (firstBestRec_eq_none.mp h2)
      rcases h3 : firstBestRec Prod.snd ltB (candOf (hourPoints (truthyPoints rows k)))
        with _ | ch
      · exact hcne2 (firstBestRec_eq_none.mp h3)
      rcases h4 : firstBestRec Prod.snd gtB (candOf (hourPoints (truthyPoints rows k)))
        with _ | dh
      · exact hcne2 (firstBestRec_eq_none.mp h4)
      rw [h1, h2, h3, h4] at hnone
      cases hnone
    · intro hpts
      have hdaynil : candOf (dayPoints (truthyPoints rows k)) = [] := by
        rw [candOf_nil_iff, dayPoints, hpts]
        rfl
      have hhournil : candOf (hourPoints (truthyPoints rows k)) = [] := by
        rw [candOf_nil_iff, hourPoints, hpts]
        rfl
      rw [hdaynil, hhournil, firstBestRec_nil]
  · intro res hres
    rw [analyzePricePatterns, patternOf, hday, hday2, hhour, hhour2] at hres
    rcases h1 : firstBestRec Prod.snd ltB (candOf (dayPoints (truthyPoints rows k)))
      with _ | cd <;> rw [h1] at hres
    · cases hres
    rcases h2 : firstBestRec Prod.snd gtB (candOf (dayPoints (truthyPoints rows k)))
      with _ | dd <;> rw [h2] at hres
    · cases hres
    rcases h3 : firstBestRec Prod.snd ltB (candOf (hourPoints (truthyPoints rows k)))
      with _ | ch <;> rw [h3] at hres
    · cases hres
    rcases h4 : firstBestRec Prod.snd gtB (candOf (hourPoints (truthyPoints rows k)))
      with _ | dh <;> rw [h4] at hres
    · cases hres
    have hres4 : res = ⟨cd, dd, ch, dh⟩ := (Option.some_inj.mp hres).symm
    subst hres4
    have hcd : cd = (cd.1, cd.2) := rfl
    have hdd : dd = (dd.1, dd.2) := rfl
    have hch : ch = (ch.1, ch.2) := rfl
    have hdh : dh = (dh.1, dh.2) := rfl
    refine ⟨⟨?_, ?_⟩, ⟨?_, ?_⟩, ⟨?_, ?_⟩, ⟨?_, ?_⟩⟩
    · exact mem_candOf.mp (hcd ▸ firstBestRec_mem h1)
    · intro d a ha
      have hb := firstBestRec_best ltB_irr ltB_asymm ltB_negtrans h1 (d, a)
        (mem_candOf.mpr ha)
      simp only [ltB, decide_eq_false_iff_not, not_lt] at hb
      exact hb
    · exact mem_candOf.mp (hdd ▸ firstBestRec_mem h2)
    · intro d a ha
      have hb := firstBestRec_best gtB_irr gtB_asymm gtB_negtrans h2 (d, a)
        (mem_candOf.mpr ha)
      simp only [gtB, decide_eq_false_iff_not, not_lt] at hb
      exact hb
    · exact mem_candOf.mp (hch ▸ firstBestRec_mem h3)
    · intro h a ha
      have hb := firstBestRec_best ltB_irr ltB_asymm ltB_negtrans h3 (h, a)
        (mem_candOf.mpr ha)
      simp only [ltB, decide_eq_false_iff_not, not_lt] at hb
      exact hb
    · exact mem_candOf.mp (hdh ▸ firstBestRec_mem h4)
    · intro h a ha
      have hb := firstBestRec_best gtB_irr gtB_asymm gtB_negtrans h4 (h, a)
        (mem_candOf.mpr ha)
      simp only [gtB, decide_eq_false_iff_not, not_lt] at hb
      exact hb

theorem advVariance_nonneg (rows : List PriceRow) (k : FuelKey) :
    0 ≤ advVariance rows k := by
  rw [advVariance]
  apply div_nonneg
  · apply List.sum_nonneg
    intro x hx
    obtain ⟨v, _, rfl⟩ := List.mem_map.mp hx
    exact sq_nonneg _
  · exact_mod_cast Nat.zero_le _

theorem expensive_iff (d v : ℚ) (hv : 0 ≤ v) :
    ((3 : ℚ)/100 ≤ d ∧ (9 : ℚ)/4 * v ≤ d ^ 2) ↔
    max ((3 : ℝ)/100) ((3 : ℝ)/2 * Real.sqrt (v : ℝ)) ≤ (d : ℝ) := by
  have hv2 : (0 : ℝ) ≤ (v : ℝ) := by exact_mod_cast hv
  have hs := Real.sqrt_nonneg (v : ℝ)
  have hsq : Real.sqrt (v : ℝ) ^ 2 = (v : ℝ) := Real.sq_sqrt hv2
  rw [max_le_iff]
  constructor
  · rintro ⟨h1, h2⟩
    have h1R : ((3/100 : ℚ) : ℝ) ≤ ((d : ℚ) : ℝ) := Rat.cast_le.mpr h1
    have h2R : ((9/4 * v : ℚ) : ℝ) ≤ ((d ^ 2 : ℚ) : ℝ) := Rat.cast_le.mpr h2
    push_cast at h1R h2R
    refine ⟨by linarith, ?_⟩
    nlinarith [hs, hsq, h1R, h2R]
  · rintro ⟨h1, h2⟩
    have h2R : (9 : ℝ)/4 * (v : ℝ) ≤ (d : ℝ) ^ 2 := by nlinarith [hs, hsq, h1, h2]
    constructor
    · have hq : ((3/100 : ℚ) : ℝ) ≤ ((d : ℚ) : ℝ) := by push_cast; linarith
      exact Rat.cast_le.mp hq
    · have hq : ((9/4 * v : ℚ) : ℝ) ≤ ((d ^ 2 : ℚ) : ℝ) := by push_cast; linarith
      exact Rat.cast_le.mp hq

theorem advDecision_eq_buy (rows : List PriceRow) (k : FuelKey) :
    advDecision rows k = Decision.buy ↔ advBargain rows k = true := by
  rw [advDecision]
  by_cases hB : advBargain rows k = true
  · simp [hB]
  · by_cases hE : advExpensive rows k = true
    · simp [hB, hE]
    · simp [hB, hE]

theorem advDecision_eq_wait (rows : List PriceRow) (k : FuelKey) :
    advDecision rows k = Decision.wait ↔
      (advBargain rows k = false ∧ advExpensive rows k = true) := by
  rw [advDecision]
  by_cases hB : advBargain rows k = true
  · simp [hB]
  · by_cases hE : advExpensive rows k = true
    · simp only [Bool.not_eq_true] at hB
      simp [hB, hE]
    · simp only [Bool.not_eq_true] at hB hE
      simp [hB, hE]

theorem advDecision_eq_neutral (rows : List PriceRow) (k : FuelKey) :
    advDecision rows k = Decision.neutral ↔
      (advBargain rows k = false ∧ advExpensive rows k = false) := by
  rw [advDecision]
  by_cases hB : advBargain rows k = true
  · simp [hB]
  · by_cases hE : advExpensive rows k = true
    · simp only [Bool.not_eq_true] at hB
      simp [hB, hE]
    · simp only [Bool.not_eq_true] at hB hE
      simp [hB, hE]

/-- C2: the advice is `null` exactly when fewer than 3 non-null points
exist for the fuel key; otherwise the current price is the most recent
non-null value, the median is the element at index `floor(n/2)` of the
ascending-sorted values, the mean and population variance are computed
over all non-null values, and the decision is, in this order: `buy` if
the current price is at most the best-2-hour-window average plus 0.02;
else `wait` if the current price is at least the median plus
`max(0.03, 1.5 × population standard deviation)`; else `neutral`. -/
theorem C2_buy_wait_advice (rows : List PriceRow) (k : FuelKey) (curHour : Nat) :
    ((adviceValues rows k).length < 3 → computeAdvice rows k curHour = none) ∧
    (3 ≤ (adviceValues rows k).length →
      ∃ a, computeAdvice rows k curHour = some a ∧
        a.lastPrice = ((adviceValues rows k).getLastD (0, 0)).2 ∧
        a.median = (sortedVals rows k).getD ((sortedVals rows k).length / 2) 0 ∧
        a.mean = (sortedVals rows k).sum / ((sortedVals rows k).length : ℚ) ∧
        a.variance = ((sortedVals rows k).map (fun v => (v - a.mean) ^ 2)).sum /
          ((sortedVals rows k).length : ℚ) ∧
        (a.decision = Decision.buy ↔ bargainProp a) ∧
        (a.decision = Decision.wait ↔ (¬ bargainProp a ∧ expensiveProp a)) ∧
        (a.decision = Decision.neutral ↔ (¬ bargainProp a ∧ ¬ expensiveProp a))) := by
  constructor
  · intro h3
    rw [computeAdvice, if_pos h3]
  · intro h3
    have hnlt : ¬ (adviceValues rows k).length < 3 := not_lt.mpr h3
    rw [computeAdvice, if_neg hnlt]
    refine ⟨_, rfl, rfl, rfl, rfl, rfl, ?_, ?_, ?_⟩
    all_goals
      have hBP : (advBargain rows k = true) ↔
          bargainProp
            { lastPrice := (advLast rows k).2
              median := advMedian rows k
              mean := advMean rows k
              variance := advVariance rows k
              bestStart := (advBestHour rows k).1
              bestEnd := ((advBestHour rows k).1 + 2) % 24
              bestAvg := (advBestHour rows k).2
              decision := advDecision rows k
              daysOffset := if curHour ≤ (advBestHour rows k).1 then 0 else 1 } := by
        rw [advBargain, bargainProp]
        cases hba : (advBestHour rows k).2 with
        | none => simp
        | some q => simp
      have hEP : (advExpensive rows k = true) ↔
          expensiveProp
            { lastPrice := (advLast rows k).2
              median := advMedian rows k
              mean := advMean rows k
              variance := advVariance rows k
              bestStart := (advBestHour rows k).1
              bestEnd := ((advBestHour rows k).1 + 2) % 24
              bestAvg := (advBestHour rows k).2
              decision := advDecision rows k
              daysOffset := if curHour ≤ (advBestHour rows k).1 then 0 else 1 } := by
        rw [advExpensive, expensiveProp]
        simp only [Bool.and_eq_true, decide_eq_true_eq]
        rw [expensive_iff _ _ (advVariance_nonneg rows k)]
        have hcast : (((advLast rows k).2 - advMedian rows k : ℚ) : ℝ) =
            ((advLast rows k).2 : ℝ) - (advMedian rows k : ℝ) := by
          push_cast
          ring
        rw [hcast]
        constructor <;> intro h <;> [linarith; linarith]
    · show advDecision rows k = Decision.buy ↔ _
      rw [advDecision_eq_buy]
      exact hBP
    · show advDecision rows k = Decision.wait ↔ _
      rw [advDecision_eq_wait]
      constructor
      · rintro ⟨hb, he⟩
        constructor
        · intro hc
          rw [← hBP] at hc
          rw [hc] at hb
          cases hb
        · exact hEP.mp he
      · rintro ⟨hb, he⟩
        constructor
        · cases hba : advBargain rows k with
          | false => rfl
          | true => exact absurd (hBP.mp hba) hb
        · exact hEP.mpr he
    · show advDecision rows k = Decision.neutral ↔ _
      rw [advDecision_eq_neutral]
      constructor
      · rintro ⟨hb, he⟩
        constructor
        · intro hc
          rw [← hBP] at hc
          rw [hc] at hb
          cases hb
        · intro hc
          rw [← hEP] at hc
          rw [hc] at he
          cases he
      · rintro ⟨hb, he⟩
        constructor
        · cases hba : advBargain rows k with
          | false => rfl
          | true => exact absurd (hBP.mp hba) hb
        · cases hex : advExpensive rows k with
          | false => rfl
          | true => exact absurd (hEP.mp hex) he

/-- Witness for C2 on the spec's example series
[1.80, 1.82, 1.79, 1.85, 1.78]: the result is non-null with median 1.80. -/
theorem C2_buy_wait_advice_witness :
    ∃ a, computeAdvice series5 FuelKey.diesel 10 = some a ∧ a.median = mkRat 9 5 := by
  obtain ⟨a, ha, -, hmed, -⟩ :=
    (C2_buy_wait_advice series5 FuelKey.diesel 10).2 (by decide)
  refine ⟨a, ha, ?_⟩
  rw [hmed]
  decide

theorem sortedVals_length (rows : List PriceRow) (k : FuelKey) :
    (sortedVals rows k).length = (adviceValues rows k).length := by
  rw [sortedVals, (List.perm_insertionSort _ _).length_eq, List.length_map]

/-- C10: whenever the advice is non-null, its median is the element at
index `floor(n/2)` of the ascending-sorted values — for even n the upper
of the two middle elements, not their arithmetic mean, and for odd n the
true middle element.  The second conjunct separates the two readings on
the concrete even-length series [1.78, 1.79, 1.81, 1.82]: the median is
1.81 while the mean of the two middle elements is 1.80. -/
theorem C10_median_upper_middle :
    (∀ (rows : List PriceRow) (k : FuelKey) (curHour : Nat),
      3 ≤ (adviceValues rows k).length →
      ∃ a, computeAdvice rows k curHour = some a ∧
        ∃ hlt : (sortedVals rows k).length / 2 < (sortedVals rows k).length,
          a.median = (sortedVals rows k).get
            ⟨(sortedVals rows k).length / 2, hlt⟩) ∧
    (∃ a, computeAdvice series4 FuelKey.diesel 0 = some a ∧
      (sortedVals series4 FuelKey.diesel).length = 4 ∧
      a.median = mkRat 181 100 ∧
      mkRat 179 100 + mkRat 181 100 = 2 * mkRat 9 5 ∧
      a.median ≠ mkRat 9 5) := by
  constructor
  · intro rows k curHour h3
    have hnlt : ¬ (adviceValues rows k).length < 3 := not_lt.mpr h3
    rw [computeAdvice, if_neg hnlt]
    have hslen := sortedVals_length rows k
    have hlt : (sortedVals rows k).length / 2 < (sortedVals rows k).length := by
      omega
    refine ⟨_, rfl, hlt, ?_⟩
    show advMedian rows k = _
    rw [advMedian, List.getD_eq_getElem?_getD, List.getElem?_eq_getElem hlt,
      Option.getD_some, List.get_eq_getElem]
  · rw [computeAdvice, if_neg (by decide)]
    refine ⟨_, rfl, by decide, by decide, ?_, by decide⟩
    norm_num [Rat.mkRat_eq_divInt, Rat.divInt_eq_div]

/-- Witness for C10 on the even-length series [1.78, 1.79, 1.81, 1.82]:
the advice is non-null and its median is 1.81, the upper middle. -/
theorem C10_median_witness :
    ∃ a, computeAdvice series4 FuelKey.diesel 0 = some a ∧ a.median = mkRat 181 100 := by
  obtain ⟨a, ha, hlt, hmed⟩ :=
    C10_median_upper_middle.1 series4 FuelKey.diesel 0 (by decide)
  refine ⟨a, ha, ?_⟩
  rw [hmed]
  have hg : (sortedVals series4 FuelKey.diesel).get
      ⟨(sortedVals series4 FuelKey.diesel).length / 2, hlt⟩ =
      (sortedVals series4 FuelKey.diesel).getD
        ((sortedVals series4 FuelKey.diesel).length / 2) 0 := by
    rw [List.getD_eq_getElem?_getD, List.getElem?_eq_getElem hlt,
      Option.getD_some, List.get_eq_getElem]
  rw [hg]
  decide

/-- C9: a reported price of exactly 0 is treated as if it were absent by
all three truthiness-based paths: the cheapest-across-stations loop
leaves its accumulator unchanged at a station whose most recent value is
0, the pattern analysis of a series is unchanged by adding a 0-valued
row, and chart alignment maps a timestamp whose row carries a 0 price to
the gap marker. -/
theorem C9_zero_treated_as_absent :
    (∀ (k : FuelKey) (acc : Option (Station × ℚ)) (sd : StationData),
      sd.data.getLast?.bind (fun row => fuelVal row k) = some 0 →
      cheaperStep k acc sd = acc) ∧
    (∀ (rows : List PriceRow) (k : FuelKey) (r : PriceRow), fuelVal r k = some 0 →
      analyzePricePatterns (r :: rows) k = analyzePricePatterns rows k) ∧
    (∀ (data : List PriceRow) (k : FuelKey) (ts : Nat) (r : PriceRow),
      data.reverse.find? (fun x => x.ts == ts) = some r → fuelVal r k = some 0 →
      alignedPoint data k ts = none) := by
  refine ⟨?_, ?_, ?_⟩
  · intro k acc sd hbind
    obtain ⟨row, hlast, hval⟩ := Option.bind_eq_some.mp hbind
    simp [cheaperStep, hlast, hval]
  · intro rows k r hval
    have hpts : truthyPoints (r :: rows) k = truthyPoints rows k := by
      rw [truthyPoints, truthyPoints, List.filterMap_cons]
      rw [hval]
      simp
    rw [analyzePricePatterns, analyzePricePatterns, hpts]
  · intro data k ts r hfind hval
    simp [alignedPoint, hfind, hval]

/-- Witness for C9: with a single row reporting diesel price 0, the
cheapest search keeps its sentinel, the pattern analysis equals that of
the empty series, and the aligned value at the row's timestamp is the
gap marker. -/
theorem C9_zero_witness :
    cheaperStep FuelKey.diesel none sdZ = none ∧
    analyzePricePatterns [rowZ] FuelKey.diesel = analyzePricePatterns [] FuelKey.diesel ∧
    alignedPoint [rowZ] FuelKey.diesel 0 = none := by
  have h := C9_zero_treated_as_absent
  exact ⟨h.1 FuelKey.diesel none sdZ (by decide),
    h.2.1 [] FuelKey.diesel rowZ (by decide),
    h.2.2 [rowZ] FuelKey.diesel 0 rowZ (by decide) (by decide)⟩

/-- Witness for C7 on a concrete two-point series: the series has a
processed point, so by the theorem the analysis is non-null. -/
theorem C7_pattern_witness :
    truthyPoints rowsPat FuelKey.diesel ≠ [] ∧
    analyzePricePatterns rowsPat FuelKey.diesel ≠ none := by
  have h := (C7_pattern_analysis rowsPat FuelKey.diesel (by decide)).2.1
  have hne : truthyPoints rowsPat FuelKey.diesel ≠ [] := by decide
  exact ⟨hne, fun hc => hne (h.mp hc)⟩

theorem splitSemi_no_semi {y : List Char} (hy : ';' ∉ y) : splitSemi y = [y] := by
  induction y with
  | nil => rfl
  | cons c cs ih =>
      have hc : c ≠ ';' := fun h => hy (h ▸ List.mem_cons_self c cs)
      have hcs : ';' ∉ cs := fun h => hy (List.mem_cons_of_mem c h)
      simp only [splitSemi, if_neg hc, ih hcs]

theorem splitSemi_append {x y : List Char} (hx : ';' ∉ x) :
    splitSemi (x ++ ';' :: y) = x :: splitSemi y := by
  induction x with
  | nil => simp [splitSemi]
  | cons c cs ih =>
      have hc : c ≠ ';' := fun h => hx (h ▸ List.mem_cons_self c cs)
      have hcs : ';' ∉ cs := fun h => hx (List.mem_cons_of_mem c h)
      rw [List.cons_append]
      simp only [splitSemi, if_neg hc, ih hcs]

theorem loadTimeString_range {I : Type} (toISO : I → List Char)
    (parseD : List Char → Option I) (t0 t1 : I)
    (hx : ';' ∉ toISO t0) (hy : ';' ∉ toISO t1)
    (hp0 : parseD (toISO t0) = some t0) (hp1 : parseD (toISO t1) = some t1) :
    loadTimeString parseD (toISO t0 ++ ';' :: toISO t1) = TimeRange.range t0 t1 := by
  have hmem : ';' ∈ toISO t0 ++ ';' :: toISO t1 :=
    List.mem_append.mpr (Or.inr (List.mem_cons_self _ _))
  rw [loadTimeString, if_pos hmem, splitSemi_append hx, splitSemi_no_semi hy]
  simp only [List.getD_cons_zero, List.getD_cons_succ, hp0, hp1]

theorem loadTimeString_invalid {I : Type} (parseD : List Char → Option I)
    (s : List Char) (hmem : ';' ∈ s)
    (hbad : parseD ((splitSemi s).getD 0 []) = none ∨
      parseD ((splitSemi s).getD 1 []) = none) :
    loadTimeString parseD s = TimeRange.preset s := by
  rw [loadTimeString, if_pos hmem]
  cases hp : parseD ((splitSemi s).getD 0 []) with
  | none => rfl
  | some a =>
      rcases hbad with h0 | h1
      · rw [hp] at h0
        cases h0
      · rw [h1]

/-- C3: serializing an explicit time window as
`start.toISOString();end.toISOString()` and deserializing — through
storage or through the URL — yields the same explicit range (whenever the
external date printer round-trips with the parser and prints no
semicolon, as ISO-8601 instants do), and a serialized pair in which
either side fails to parse as a valid instant never crashes the loader:
it is kept verbatim as an opaque preset-like string (not turned into the
`all` preset). -/
theorem C3_time_window_round_trip {I : Type} (toISO : I → List Char)
    (parseD : List Char → Option I) (t0 t1 : I)
    (hx : ';' ∉ toISO t0) (hy : ';' ∉ toISO t1)
    (hp0 : parseD (toISO t0) = some t0) (hp1 : parseD (toISO t1) = some t1) :
    loadSelectedTimeRange parseD
      (some (serializeTimeRange toISO (TimeRange.range t0 t1))) =
      TimeRange.range t0 t1 ∧
    urlTimeRange parseD
      (some (serializeTimeRange toISO (TimeRange.range t0 t1))) =
      TimeRange.range t0 t1 ∧
    (∀ s : List Char, ';' ∈ s →
      parseD ((splitSemi s).getD 0 []) = none ∨
        parseD ((splitSemi s).getD 1 []) = none →
      loadSelectedTimeRange parseD (some s) = TimeRange.preset s ∧
      urlTimeRange parseD (some s) = TimeRange.preset s) := by
  have hser : serializeTimeRange toISO (TimeRange.range t0 t1) =
      toISO t0 ++ ';' :: toISO t1 := rfl
  have hne : toISO t0 ++ ';' :: toISO t1 ≠ [] := by simp
  refine ⟨?_, ?_, ?_⟩
  · rw [loadSelectedTimeRange, hser]
    rw [show (if toISO t0 ++ ';' :: toISO t1 = [] then allChars
        else toISO t0 ++ ';' :: toISO t1) = toISO t0 ++ ';' :: toISO t1
      from if_neg hne]
    exact loadTimeString_range toISO parseD t0 t1 hx hy hp0 hp1
  · rw [urlTimeRange, hser, loadTimeString_range toISO parseD t0 t1 hx hy hp0 hp1]
  · intro s hmem hbad
    have hsne : s ≠ [] := by
      intro hc
      rw [hc] at hmem
      cases hmem
    constructor
    · rw [loadSelectedTimeRange]
      rw [show (if s = [] then allChars else s) = s from if_neg hsne]
      exact loadTimeString_invalid parseD s hmem hbad
    · rw [urlTimeRange, loadTimeString_invalid parseD s hmem hbad]
      simp [hsne]

/-- Witness for C3: with decimal printing and parsing standing in for the
external date functions, the explicit range (3, 7) round-trips through
both the storage and the URL deserializers. -/
theorem C3_round_trip_witness :
    loadSelectedTimeRange parseNatChars
      (some (serializeTimeRange natToChars (TimeRange.range 3 7))) =
      TimeRange.range 3 7 ∧
    urlTimeRange parseNatChars
      (some (serializeTimeRange natToChars (TimeRange.range 3 7))) =
      TimeRange.range (3 : Nat) 7 := by
  have h := C3_time_window_round_trip natToChars parseNatChars 3 7
    (by decide) (by decide) (by decide) (by decide)
  exact ⟨h.1, h.2.1⟩

/-- Counterexample for C3 as stated: the serialized pair `bad;123`, whose
first side fails to parse, deserializes to the raw string `bad;123` kept
as an opaque preset value — not to the `all` preset the claim promises. -/
theorem C3_invalid_pair_counterexample :
    loadSelectedTimeRange parseNatChars (some ("bad;123".data)) =
      TimeRange.preset ("bad;123".data) ∧
    TimeRange.preset ("bad;123".data) ≠ (TimeRange.preset allChars : TimeRange Nat) := by
  constructor
  · decide
  · decide

end CrawlMtk
